import Mathlib

/-!
Shallow embedding of `bypy/linux.py` (the chroot-based Linux build-container
manager) and verification of its specification claims.

Conventions of the embedding:
* Python strings are Lean `String`s; character-level operations
  (`startswith`, substring containment, `lstrip`) are modelled on `.data`.
* The live kernel mount table is a `List (String × String)` of
  (mount-point, source) entries in chronological mount order; a `mount`
  syscall appends an entry, a lazy `umount` removes the most recent entry
  at the given mount point.
* The filesystem seen by `os.path.exists` / `os.remove` / `os.rename` is a
  `List String` of existing paths.
* Host facts that the code merely queries (user name, uid, gid, TERM,
  resolved paths) are passed in as parameters.
* Exceptions are `Except`; `SystemExit(ret)` is `Except.error ret`.
-/

namespace Bypy

/-- Python `pre.isPrefixOf`-style check used to model `s.startswith(pre)`:
character-wise prefix test on the underlying character lists. -/
def str_startswith (pre s : String) : Bool :=
  pre.data.isPrefixOf s.data

/-- Substring occurrence on character lists: does `needle` occur as a
contiguous run inside `hay`? Models Python `needle in hay`. -/
def charsContain (needle : List Char) : List Char → Bool
  | [] => needle.isEmpty
  | c :: rest => needle.isPrefixOf (c :: rest) || charsContain needle rest

/-- Python `needle in s` substring containment. -/
def str_contains (s needle : String) : Bool :=
  charsContain needle.data s.data

/-- Python `s.lstrip('/')`: drop every leading slash. -/
def str_lstrip_slash (s : String) : String :=
  String.mk (s.data.dropWhile (fun c => c = '/'))

/-- Python `os.path.join(a, b)` for the shapes used in `linux.py`:
an absolute `b` wins; otherwise a single separator is inserted unless `a`
already ends in one (or is empty). -/
def pyJoin (a b : String) : String :=
  if str_startswith "/" b then b
  else if a = "" then b
  else if a.data.getLast? = some '/' then a ++ b
  else a ++ "/" ++ b

/-! ## Image Store: `mount_image` / `unmount_image` (linux.py lines 44-54)

The per-process "mounted" marker is the presence of the Python function
attribute `mount_image.mounted`; we model it as a `Bool` in `ImgState`,
together with the chronological trace of privileged mount/umount calls. -/

/-- Privileged operations issued by the image store. -/
inductive PrivOp
  | mountImg
  | umountImg
deriving DecidableEq

/-- State of the per-process image-mount flag plus the trace of privileged
calls issued so far. `mounted = true` models `hasattr(mount_image, 'mounted')`. -/
structure ImgState where
  mounted : Bool
  ops : List PrivOp
deriving DecidableEq

/-- Embedding of `mount_image` (lines 44-47): issue the privileged mount only
when the attribute is absent, then set the attribute unconditionally. -/
def mount_image (s : ImgState) : ImgState :=
  { mounted := true
    ops := if s.mounted then s.ops else s.ops ++ [PrivOp.mountImg] }

/-- Embedding of `unmount_image` (lines 50-54): if the attribute is present,
issue the privileged umount and delete the attribute; otherwise do nothing. -/
def unmount_image (s : ImgState) : ImgState :=
  if s.mounted then { mounted := false, ops := s.ops ++ [PrivOp.umountImg] } else s

/-! ## Chroot Command Runner: `chroot` (linux.py lines 77-103) -/

/-- Environment dict built by `chroot` (lines 82-90), kept as an
insertion-ordered association list exactly as a Python dict would iterate it.
`hostTerm` is `os.environ.get('TERM')`. -/
def chroot_env (user : String) (hostTerm : Option String) (archStr : String)
    (as_root for_install : Bool) : List (String × String) :=
  [("PATH", "/sbin:/usr/sbin:/usr/local/bin:/bin:/usr/bin"),
   ("HOME", if as_root then "/root" else "/home/" ++ user),
   ("USER", if as_root then "root" else user),
   ("TERM", hostTerm.getD "xterm-256color"),
   ("BYPY_ARCH", archStr ++ "-bit")] ++
  (if for_install then [("DEBIAN_FRONTEND", "noninteractive")] else [])

/-- The `--userspec` argument list `us` (lines 91-92): empty when running as
root, otherwise an explicit uid:gid mapping of the invoking host user. -/
def chroot_userspec (uid gid : Nat) (as_root : Bool) : List String :=
  if as_root then [] else ["--userspec=" ++ toString uid ++ ":" ++ toString gid]

/-- The `env` prefix of the in-chroot invocation (lines 94-96). -/
def env_cmd_of (env : List (String × String)) : List String :=
  "env" :: env.map (fun kv => kv.1 ++ "=" ++ kv.2)

/-- Full privileged invocation assembled on line 97. -/
def chroot_cmd (img_path archStr user : String) (hostTerm : Option String)
    (uid gid : Nat) (as_root for_install : Bool) (cmd : List String) : List String :=
  ["sudo", "chroot"] ++ chroot_userspec uid gid as_root ++ [img_path] ++
    ["linux" ++ archStr, "--"] ++
    env_cmd_of (chroot_env user hostTerm archStr as_root for_install) ++ cmd

/-- Exit-status handling of `chroot` (lines 101-103): wait for the child and
raise `SystemExit(ret)` exactly when the status is non-zero. -/
def chroot_wait (ret : Int) : Except Int Unit :=
  if ret ≠ 0 then Except.error ret else Except.ok ()

/-- Dict-style lookup in an association list (first binding wins; the lists
built here never repeat a key). -/
def envLookup (env : List (String × String)) (k : String) : Option String :=
  (env.find? (fun kv => kv.1 == k)).map Prod.snd

/-! ## Filesystem model and `build_container` (linux.py lines 234-247) -/

/-- A filesystem is the list of currently existing paths. -/
abbrev Fs := List String

/-- Python `os.path.exists`. -/
def fs_exists (fs : Fs) (p : String) : Bool := fs.contains p

/-- Python `os.remove` (the existence check is done by the caller). -/
def fs_remove (fs : Fs) (p : String) : Fs := fs.filter (fun q => q ≠ p)

/-- Create a path (used for the destination of a rename). -/
def fs_add (fs : Fs) (p : String) : Fs := if fs.contains p then fs else fs ++ [p]

/-- Exceptions relevant to `build_container`. `SystemExit` — raised by
`chroot` (line 103) and `write_in_chroot` (line 115) when a provisioning
command exits non-zero — derives from `BaseException`, not `Exception`; the
other two derive from `Exception`. -/
inductive PyExc
  | provisioningError
  | fileNotFoundError
  | systemExit (code : Int)
deriving DecidableEq

/-- Whether `except Exception:` catches this exception class. -/
def PyExc.isException : PyExc → Bool
  | PyExc.provisioningError => true
  | PyExc.fileNotFoundError => true
  | PyExc.systemExit _ => false

/-- Python `os.rename`: raises `FileNotFoundError` when the source is absent,
otherwise atomically moves (replacing any destination). -/
def os_rename (fs : Fs) (src dst : String) : Except PyExc Fs :=
  if fs_exists fs src then Except.ok (fs_add (fs_remove fs src) dst)
  else Except.error PyExc.fileNotFoundError

/-- Embedding of `check_for_image` (lines 246-247). -/
def check_for_image (img_store_path : String) (fs : Fs) : Bool :=
  fs_exists fs img_store_path

/-- Embedding of `build_container` (lines 234-243). The provisioning body
`_build_container` is abstracted by its outcome: either a final filesystem, or
an escaping exception together with the filesystem at the moment it was
raised. The handler is `except Exception:`: for an `Exception`-derived error
it quarantines the half-built image (removing a stale `.failed` file, then
renaming the image file to the `.failed` path; a rename failure raises in the
error's place) and re-raises; an escaping `SystemExit` — the non-zero
provisioning-command case — is not caught, so it propagates with no rename. -/
def build_container (img_store_path : String)
    (outcome : Except (PyExc × Fs) Fs) : Except (PyExc × Fs) Fs :=
  match outcome with
  | Except.ok fs => Except.ok fs
  | Except.error (e, fs) =>
    if e.isException then
      let failed_img_path := img_store_path ++ ".failed"
      let fs1 := if fs_exists fs failed_img_path then fs_remove fs failed_img_path else fs
      match os_rename fs1 img_store_path failed_img_path with
      | Except.ok fs2 => Except.error (e, fs2)
      | Except.error e2 => Except.error (e2, fs1)
    else Except.error (e, fs)

/-! ## Basic string lemmas -/

theorem isPrefixOf_self (l : List Char) : l.isPrefixOf l = true := by
  induction l with
  | nil => rfl
  | cons a t ih => simp [List.isPrefixOf, ih]

theorem isPrefixOf_length_le :
    ∀ l m : List Char, l.isPrefixOf m = true → l.length ≤ m.length := by
  intro l
  induction l with
  | nil => intro m _; simp
  | cons a t ih =>
    intro m h
    cases m with
    | nil => simp [List.isPrefixOf] at h
    | cons b u =>
      simp only [List.isPrefixOf, Bool.and_eq_true] at h
      have := ih u h.2
      simp [List.length_cons]
      omega

theorem isPrefixOf_eq_of_length :
    ∀ l m : List Char, l.isPrefixOf m = true → l.length = m.length → l = m := by
  intro l
  induction l with
  | nil =>
    intro m _ hlen
    cases m with
    | nil => rfl
    | cons b u => simp at hlen
  | cons a t ih =>
    intro m h hlen
    cases m with
    | nil => simp [List.isPrefixOf] at h
    | cons b u =>
      simp only [List.isPrefixOf, Bool.and_eq_true, beq_iff_eq] at h
      have : t = u := ih u h.2 (by simpa using hlen)
      simp [h.1, this]

theorem str_startswith_self (s : String) : str_startswith s s = true := by
  simp [str_startswith, isPrefixOf_self]

theorem str_startswith_length_lt (a b : String)
    (h : str_startswith a b = true) (hne : a ≠ b) : a.length < b.length := by
  have hle := isPrefixOf_length_le a.data b.data h
  rcases Nat.lt_or_ge a.data.length b.data.length with hlt | hge
  · exact hlt
  · exfalso
    have heq : a.data.length = b.data.length := Nat.le_antisymm hle hge
    exact hne (String.ext (isPrefixOf_eq_of_length a.data b.data h heq))

theorem string_ne_append_failed (s : String) : s ≠ s ++ ".failed" := by
  intro h
  have hlen := congrArg (fun t => t.data.length) h
  have h7 : ".failed".data.length = 7 := by decide
  simp only [String.data_append, List.length_append, h7] at hlen
  omega

/-! ## Filesystem membership lemmas -/

theorem mem_fs_add (fs : Fs) (p q : String) : q ∈ fs_add fs p ↔ q ∈ fs ∨ q = p := by
  unfold fs_add
  split
  · rename_i hc
    have hp : p ∈ fs := by simpa [List.contains] using hc
    constructor
    · exact Or.inl
    · rintro (hq | rfl)
      · exact hq
      · exact hp
  · simp

theorem mem_fs_remove (fs : Fs) (p q : String) : q ∈ fs_remove fs p ↔ q ∈ fs ∧ q ≠ p := by
  simp [fs_remove]

/-! ## Claim theorems: C1, C4, C5, C6 -/

/-- Supporting fact: for an `Exception`-derived error raised while the image
file exists, the handler does quarantine — afterwards the canonical image
path does not exist, the `.failed` path exists, and `check_for_image` returns
false. (The `SystemExit` path, which the handler misses, is the subject of
the C1 theorem below.) -/
theorem quarantine_on_exception (img_store_path : String) (e : PyExc) (fs : Fs)
    (hexc : e.isException = true)
    (h : fs_exists fs img_store_path = true) :
    ∃ fs2,
      build_container img_store_path (Except.error (e, fs)) = Except.error (e, fs2) ∧
      fs_exists fs2 img_store_path = false ∧
      fs_exists fs2 (img_store_path ++ ".failed") = true ∧
      check_for_image img_store_path fs2 = false := by
  have hne := string_ne_append_failed img_store_path
  have hmem : img_store_path ∈ fs := by simpa [fs_exists, List.contains] using h
  have h1 : img_store_path ∈
      (if fs_exists fs (img_store_path ++ ".failed")
        then fs_remove fs (img_store_path ++ ".failed") else fs) := by
    split
    · exact (mem_fs_remove fs _ _).2 ⟨hmem, hne⟩
    · exact hmem
  have hex1 : fs_exists
      (if fs_exists fs (img_store_path ++ ".failed")
        then fs_remove fs (img_store_path ++ ".failed") else fs) img_store_path = true := by
    simpa [fs_exists, List.contains] using h1
  refine ⟨fs_add (fs_remove
      (if fs_exists fs (img_store_path ++ ".failed")
        then fs_remove fs (img_store_path ++ ".failed") else fs) img_store_path)
      (img_store_path ++ ".failed"), ?_, ?_, ?_, ?_⟩
  · simp only [build_container, hexc, os_rename, hex1, if_true]
  · have : ¬ (img_store_path ∈ fs_add (fs_remove
        (if fs_exists fs (img_store_path ++ ".failed")
          then fs_remove fs (img_store_path ++ ".failed") else fs) img_store_path)
        (img_store_path ++ ".failed")) := by
      rw [mem_fs_add, mem_fs_remove]
      rintro ((⟨_, hq⟩) | hq)
      · exact hq rfl
      · exact hne hq
    simpa [fs_exists, List.contains] using this
  · have : (img_store_path ++ ".failed") ∈ fs_add (fs_remove
        (if fs_exists fs (img_store_path ++ ".failed")
          then fs_remove fs (img_store_path ++ ".failed") else fs) img_store_path)
        (img_store_path ++ ".failed") := (mem_fs_add _ _ _).2 (Or.inr rfl)
    simpa [fs_exists, List.contains] using this
  · have : ¬ (img_store_path ∈ fs_add (fs_remove
        (if fs_exists fs (img_store_path ++ ".failed")
          then fs_remove fs (img_store_path ++ ".failed") else fs) img_store_path)
        (img_store_path ++ ".failed")) := by
      rw [mem_fs_add, mem_fs_remove]
      rintro ((⟨_, hq⟩) | hq)
      · exact hq rfl
      · exact hne hq
    simpa [check_for_image, fs_exists, List.contains] using this

/-- C1 (code bug): the spec requires the quarantine rename for every
exception escaping provisioning, including the `SystemExit` raised on a
non-zero provisioning-command exit, but `except Exception:` does not catch
`SystemExit`. Evaluating `build_container` at that failing input — a command
exiting 100 while the image file exists — performs no rename: the error
propagates unchanged, the half-built image remains at the canonical path, no
`.failed` file appears, and `check_for_image` still reports the image
present. -/
theorem C1_systemexit_skips_quarantine :
    build_container "/i/chroot.img"
        (Except.error (PyExc.systemExit 100, ["/i/chroot.img"])) =
      Except.error (PyExc.systemExit 100, ["/i/chroot.img"]) ∧
    check_for_image "/i/chroot.img" ["/i/chroot.img"] = true ∧
    fs_exists ["/i/chroot.img"] ("/i/chroot.img" ++ ".failed") = false :=
  ⟨rfl, by decide, by decide⟩

/-- C4: with `as_root = false` and host user `user` (uid, gid), the built
environment maps HOME to `/home/user` and USER to `user`, and the invocation
contains an explicit `--userspec=uid:gid`; with `as_root = true`, HOME is
`/root`, USER is `root`, and no userspec argument is inserted. -/
theorem C4_chroot_identity_mapping (user : String) (hostTerm : Option String)
    (archStr img_path : String) (uid gid : Nat) (for_install : Bool) (cmd : List String) :
    (envLookup (chroot_env user hostTerm archStr false for_install) "HOME" =
      some ("/home/" ++ user)) ∧
    (envLookup (chroot_env user hostTerm archStr false for_install) "USER" = some user) ∧
    (chroot_userspec uid gid false =
      ["--userspec=" ++ toString uid ++ ":" ++ toString gid]) ∧
    (("--userspec=" ++ toString uid ++ ":" ++ toString gid) ∈
      chroot_cmd img_path archStr user hostTerm uid gid false for_install cmd) ∧
    (envLookup (chroot_env user hostTerm archStr true for_install) "HOME" = some "/root") ∧
    (envLookup (chroot_env user hostTerm archStr true for_install) "USER" = some "root") ∧
    (chroot_userspec uid gid true = []) ∧
    (chroot_cmd img_path archStr user hostTerm uid gid true for_install cmd =
      ["sudo", "chroot", img_path, "linux" ++ archStr, "--"] ++
        env_cmd_of (chroot_env user hostTerm archStr true for_install) ++ cmd) := by
  refine ⟨?_, ?_, rfl, ?_, ?_, ?_, rfl, ?_⟩
  · simp [envLookup, chroot_env, List.find?]
  · simp [envLookup, chroot_env, List.find?]
  · simp [chroot_cmd, chroot_userspec]
  · simp [envLookup, chroot_env, List.find?]
  · simp [envLookup, chroot_env, List.find?]
  · simp [chroot_cmd, chroot_userspec]

/-- C5: the image mount/unmount pair is idempotent on the per-process flag:
mounting when already mounted issues no privileged call and keeps the flag;
unmounting when not mounted is a no-op; unmounting when mounted issues exactly
one umount and clears the flag; hence both operations are idempotent. -/
theorem C5_image_flag_idempotence (s : ImgState) :
    (s.mounted = true → mount_image s = s) ∧
    (s.mounted = false → unmount_image s = s) ∧
    (s.mounted = true →
      unmount_image s = { mounted := false, ops := s.ops ++ [PrivOp.umountImg] }) ∧
    (mount_image (mount_image s) = mount_image s) ∧
    (unmount_image (unmount_image s) = unmount_image s) := by
  obtain ⟨m, ops⟩ := s
  cases m <;> simp [mount_image, unmount_image]

/-- Witness for C5 at concrete flag states. -/
theorem C5_image_flag_idempotence_witness :
    (mount_image { mounted := true, ops := [] } = { mounted := true, ops := [] }) ∧
    (unmount_image { mounted := false, ops := [] } = { mounted := false, ops := [] }) ∧
    (unmount_image { mounted := true, ops := [] } =
      { mounted := false, ops := [PrivOp.umountImg] }) :=
  ⟨(C5_image_flag_idempotence { mounted := true, ops := [] }).1 rfl,
   (C5_image_flag_idempotence { mounted := false, ops := [] }).2.1 rfl,
   (C5_image_flag_idempotence { mounted := true, ops := [] }).2.2.1 rfl⟩

/-- C6: the chroot runner returns normally exactly when the child exits 0,
and on any non-zero status N it raises `SystemExit` carrying exactly N. -/
theorem C6_chroot_nonzero_fatal (ret : Int) :
    (chroot_wait ret = Except.ok () ↔ ret = 0) ∧
    (ret ≠ 0 → chroot_wait ret = Except.error ret) := by
  unfold chroot_wait
  by_cases h : ret = 0 <;> simp [h]

/-- Witness for C6 at exit statuses 0 and 7. -/
theorem C6_chroot_nonzero_fatal_witness :
    (chroot_wait 0 = Except.ok () ↔ (0 : Int) = 0) ∧
    ((7 : Int) ≠ 0 ∧ chroot_wait 7 = Except.error 7) :=
  ⟨(C6_chroot_nonzero_fatal 0).1,
   by decide,
   (C6_chroot_nonzero_fatal 7).2 (by decide)⟩

/-! ## Mutual-exclusion lock naming (linux.py lines 326-328 and 331-338) -/

/-- Architecture selector: `main` accepts exactly `64` or `32` as the leading
argument (line 334), defaulting to `64`. -/
inductive Arch
  | thirtyTwo
  | sixtyFour
deriving DecidableEq

/-- The global `arch` string as selected by `main`. -/
def arch_str : Arch → String
  | Arch.thirtyTwo => "32"
  | Arch.sixtyFour => "64"

/-- Lock name computed by `singleinstance` (line 327): the f-string
interpolating the architecture and `os.getcwd()`. -/
def lock_name (a : Arch) (cwd : String) : String :=
  "bypy-" ++ arch_str a ++ "-singleinstance-" ++ cwd

/-- Modelled from the spec: `single_instance` (from `bypy.utils`, which is not
under `src/`) acquires the cross-process lock of the given name; per the spec
a second invocation with the same name "must fail immediately rather than
queue", so acquisition succeeds exactly when no current holder holds an equal
name. `held` lists the names currently held by other sessions. -/
def single_instance (held : List String) (name : String) : Bool :=
  !(held.contains name)

/-- Embedding of `singleinstance` (lines 326-328). -/
def singleinstance (held : List String) (a : Arch) (cwd : String) : Bool :=
  single_instance held (lock_name a cwd)

theorem lock_name_32 (c : String) :
    (lock_name Arch.thirtyTwo c).data = "bypy-32-singleinstance-".data ++ c.data := by
  have h : lock_name Arch.thirtyTwo c = "bypy-32-singleinstance-" ++ c := rfl
  rw [h, String.data_append]

theorem lock_name_64 (c : String) :
    (lock_name Arch.sixtyFour c).data = "bypy-64-singleinstance-".data ++ c.data := by
  have h : lock_name Arch.sixtyFour c = "bypy-64-singleinstance-" ++ c := rfl
  rw [h, String.data_append]

theorem lock_name_inj (a₁ a₂ : Arch) (c₁ c₂ : String) :
    lock_name a₁ c₁ = lock_name a₂ c₂ ↔ a₁ = a₂ ∧ c₁ = c₂ := by
  constructor
  · intro h
    have hd := congrArg String.data h
    cases a₁ <;> cases a₂
    · rw [lock_name_32, lock_name_32] at hd
      exact ⟨rfl, String.ext (List.append_cancel_left hd)⟩
    · exfalso
      rw [lock_name_32, lock_name_64] at hd
      have h5 := congrArg (fun l => l.get? 5) hd
      simp at h5
    · exfalso
      rw [lock_name_64, lock_name_32] at hd
      have h5 := congrArg (fun l => l.get? 5) hd
      simp at h5
    · rw [lock_name_64, lock_name_64] at hd
      exact ⟨rfl, String.ext (List.append_cancel_left hd)⟩
  · rintro ⟨rfl, rfl⟩
    rfl

/-- C7: the lock is keyed exactly by (architecture, working directory):
equal keys give equal names and the second acquisition fails, while keys
differing in either component give distinct names and both acquisitions
succeed. -/
theorem C7_lock_keyed_by_arch_and_dir (a₁ a₂ : Arch) (c₁ c₂ : String) :
    (lock_name a₁ c₁ = lock_name a₂ c₂ ↔ a₁ = a₂ ∧ c₁ = c₂) ∧
    (singleinstance [lock_name a₁ c₁] a₁ c₁ = false) ∧
    (¬(a₁ = a₂ ∧ c₁ = c₂) → singleinstance [lock_name a₁ c₁] a₂ c₂ = true) := by
  refine ⟨lock_name_inj a₁ a₂ c₁ c₂, ?_, ?_⟩
  · simp [singleinstance, single_instance, List.contains]
  · intro hne
    have hne2 : lock_name a₂ c₂ ≠ lock_name a₁ c₁ := by
      intro h
      obtain ⟨ha, hc⟩ := (lock_name_inj a₂ a₁ c₂ c₁).1 h
      exact hne ⟨ha.symm, hc.symm⟩
    simp [singleinstance, single_instance, List.contains, hne2]

/-- Witness for C7: a holder of (64, /d) blocks (64, /d) but blocks neither
(32, /d) nor (64, /e). -/
theorem C7_lock_keyed_by_arch_and_dir_witness :
    singleinstance [lock_name Arch.sixtyFour "/d"] Arch.sixtyFour "/d" = false ∧
    singleinstance [lock_name Arch.sixtyFour "/d"] Arch.thirtyTwo "/d" = true ∧
    singleinstance [lock_name Arch.sixtyFour "/d"] Arch.sixtyFour "/e" = true :=
  ⟨(C7_lock_keyed_by_arch_and_dir Arch.sixtyFour Arch.sixtyFour "/d" "/d").2.1,
   (C7_lock_keyed_by_arch_and_dir Arch.sixtyFour Arch.thirtyTwo "/d" "/d").2.2
     (by decide),
   (C7_lock_keyed_by_arch_and_dir Arch.sixtyFour Arch.sixtyFour "/d" "/e").2.2
     (by decide)⟩

/-! ## Mount table model and `mount_all` (linux.py lines 261-285)

The live kernel mount table is a list of (mount point, source) entries in
chronological mount order; mount points are stored as the absolute,
symlink-resolved paths that `get_mounts` reports for them (so the realpath
oracle is the identity on this table). A `mount` syscall appends an entry;
mounting again over an existing mount point stacks a new entry. -/

abbrev MountTable := List (String × String)

/-- Mount points currently present: the keys of `get_mounts()`. -/
def table_dests (t : MountTable) : List String := t.map Prod.fst

theorem table_dests_append (t u : MountTable) :
    table_dests (t ++ u) = table_dests t ++ table_dests u := by
  simp [table_dests]

/-- Inner helper `mount(src, dest, readonly)` of `mount_all` (lines 266-272):
resolve `dest` against the image root and bind-mount `src` there only if the
destination is not a key of the `current_mounts` snapshot `cm`. The read-only
remount (line 272) changes mount flags on the existing entry but adds no
entry, so it does not alter the table model; likewise the `mkdir`. -/
def mount_one (img_path : String) (cm : List String) (t : MountTable)
    (src dest : String) : MountTable :=
  let d := pyJoin img_path (str_lstrip_slash dest)
  if cm.contains d then t else t ++ [(d, src)]

/-- The six guarded bind mounts issued by `mount_all` (lines 274-279) in
source order, as (source, destination) pairs. -/
def mount_all_binds (sw_dir sources_dir cwd bypy_dir tdir : String) :
    List (String × String) :=
  [(tdir, "/tmp"), (sw_dir, "/sw"), (cwd, "/src"), (sources_dir, "/sources"),
   (bypy_dir, "/bypy"), ("/dev", "/dev")]

/-- Apply the guarded bind mounts in order against the fixed snapshot `cm`. -/
def apply_binds (img_path : String) (cm : List String) (t : MountTable) :
    List (String × String) → MountTable
  | [] => t
  | sd :: rest => apply_binds img_path cm (mount_one img_path cm t sd.1 sd.2) rest

/-- Embedding of `mount_all` (lines 261-285): snapshot `get_mounts()` once,
apply the six guarded bind mounts against that snapshot, then unconditionally
mount `proc`, `sysfs` and bind `/dev/shm` (lines 280-285; the `chmod` on
line 283 does not touch the mount table). -/
def mount_all (img_path sw_dir sources_dir cwd bypy_dir tdir : String)
    (t : MountTable) : MountTable :=
  let cm := table_dests t
  apply_binds img_path cm t (mount_all_binds sw_dir sources_dir cwd bypy_dir tdir) ++
    [(pyJoin img_path "proc", "proc"), (pyJoin img_path "sys", "sys"),
     (pyJoin img_path "dev/shm", "/dev/shm")]

theorem apply_binds_dests_sub (p : String) (cm : List String) (t : MountTable)
    (l : List (String × String)) :
    table_dests t ⊆ table_dests (apply_binds p cm t l) := by
  induction l generalizing t with
  | nil => exact fun x hx => hx
  | cons sd rest ih =>
    intro x hx
    apply ih
    simp only [mount_one]
    split
    · exact hx
    · rw [table_dests_append]
      exact List.mem_append_left _ hx

theorem apply_binds_skip (p : String) (cm : List String) (t : MountTable)
    (l : List (String × String))
    (h : ∀ sd ∈ l, pyJoin p (str_lstrip_slash sd.2) ∈ cm) :
    apply_binds p cm t l = t := by
  induction l generalizing t with
  | nil => rfl
  | cons sd rest ih =>
    have hmem : pyJoin p (str_lstrip_slash sd.2) ∈ cm := h sd (by simp)
    have hc : cm.contains (pyJoin p (str_lstrip_slash sd.2)) = true := by
      simpa [List.contains] using hmem
    show apply_binds p cm (mount_one p cm t sd.1 sd.2) rest = t
    rw [show mount_one p cm t sd.1 sd.2 = t from by simp [mount_one, hc, hmem]]
    exact ih t (fun x hx => h x (by simp [hx]))

theorem apply_binds_dest_mem (p : String) (cm : List String) (t : MountTable)
    (l : List (String × String)) (hcm : ∀ x ∈ cm, x ∈ table_dests t) :
    ∀ sd ∈ l, pyJoin p (str_lstrip_slash sd.2) ∈ table_dests (apply_binds p cm t l) := by
  induction l generalizing t with
  | nil =>
    intro sd h
    cases h
  | cons sd0 rest ih =>
    intro sd hsd
    rcases List.mem_cons.1 hsd with rfl | hmem
    · refine apply_binds_dests_sub p cm (mount_one p cm t sd.1 sd.2) rest ?_
      simp only [mount_one]
      split
      · rename_i hc
        exact hcm _ (by simpa [List.contains] using hc)
      · rw [table_dests_append]
        simp [table_dests]
    · refine ih (mount_one p cm t sd0.1 sd0.2) ?_ sd hmem
      intro x hx
      have hxt := hcm x hx
      simp only [mount_one]
      split
      · exact hxt
      · rw [table_dests_append]
        exact List.mem_append_left _ hxt

/-- C2 counterexample: `mount_all` is not idempotent on the mount table; a
second call with unchanged inputs yields a strictly different table, because
the `proc`, `sysfs` and `/dev/shm` mounts are applied without any idempotency
check and stack duplicate entries. -/
theorem C2_mount_all_not_idempotent :
    mount_all "/i" "/s" "/c" "/w" "/b" "/t"
        (mount_all "/i" "/s" "/c" "/w" "/b" "/t" []) ≠
      mount_all "/i" "/s" "/c" "/w" "/b" "/t" [] := by decide

/-- C2 amended: a repeated `mount_all` call with unchanged inputs creates no
duplicate entry for any of the six checked bind mounts (tmp, sw, src,
sources, bypy, dev) — their destinations are already in the mount table so
they are skipped — but it unconditionally re-mounts `proc`, `sysfs` and
`/dev/shm`, appending exactly those three duplicate entries. -/
theorem C2_mount_all_repeat (p s c w b td : String) (t : MountTable) :
    mount_all p s c w b td (mount_all p s c w b td t) =
      mount_all p s c w b td t ++
        [(pyJoin p "proc", "proc"), (pyJoin p "sys", "sys"),
         (pyJoin p "dev/shm", "/dev/shm")] := by
  have h1 : ∀ sd ∈ mount_all_binds s c w b td,
      pyJoin p (str_lstrip_slash sd.2) ∈
        table_dests (apply_binds p (table_dests t) t (mount_all_binds s c w b td)) :=
    apply_binds_dest_mem p (table_dests t) t _ (fun x hx => hx)
  have h2 : ∀ sd ∈ mount_all_binds s c w b td,
      pyJoin p (str_lstrip_slash sd.2) ∈ table_dests (mount_all p s c w b td t) := by
    intro sd hsd
    show _ ∈ table_dests (apply_binds p (table_dests t) t (mount_all_binds s c w b td) ++ _)
    rw [table_dests_append]
    exact List.mem_append_left _ (h1 sd hsd)
  show apply_binds p (table_dests (mount_all p s c w b td t))
      (mount_all p s c w b td t) (mount_all_binds s c w b td) ++ _ = _
  rw [apply_binds_skip p _ _ _ h2]

/-! ## Teardown: `umount_all` (linux.py lines 288-297) -/

/-- Python dict key order for `get_mounts()`: first occurrence of each
destination (later duplicate destinations overwrite the value, not the key
position). -/
def dictKeys (l : List String) : List String :=
  l.foldl (fun acc d => if acc.contains d then acc else acc ++ [d]) []

/-- Stable insertion for `sorted(..., key=len, reverse=True)`: a new element
goes before the first strictly shorter one, after earlier equals. -/
def insertDesc (x : String) : List String → List String
  | [] => [x]
  | y :: ys => if y.length ≤ x.length then x :: y :: ys else y :: insertDesc x ys

/-- Stable sort by decreasing length, modelling Python `sorted` on line 292. -/
def sortDescLen : List String → List String
  | [] => []
  | x :: xs => insertDesc x (sortDescLen xs)

/-- Selection test of line 293: the mount point must start with the container
image path and must not contain the protected literal `/chroot/src/`. -/
def umount_pred (img_path mp : String) : Bool :=
  str_startswith img_path mp && !(str_contains mp "/chroot/src/")

/-- One scan of the loop body (lines 292-296): the first mount point, in
longest-first order over the current mount points, that passes the test. -/
def pickMount (img_path : String) (t : MountTable) : Option String :=
  (sortDescLen (dictKeys (table_dests t))).find? (fun mp => umount_pred img_path mp)

/-- Lazy `umount -l mp`: detach the most recent mount entry at `mp`. -/
def eraseTop (mp : String) (t : MountTable) : MountTable :=
  (t.reverse.eraseP (fun e => e.1 == mp)).reverse

/-- Fuel-indexed form of the `while found` loop (lines 289-296): each
iteration rescans the table, unmounts the first matching mount point and
restarts; it stops when no mount point matches. Returns the chronological
unmount trace and the final table. -/
def umount_loop_fuel (img_path : String) : Nat → MountTable → List String × MountTable
  | 0, t => ([], t)
  | Nat.succ fuel, t =>
    match pickMount img_path t with
    | none => ([], t)
    | some mp =>
      let r := umount_loop_fuel img_path fuel (eraseTop mp t)
      (mp :: r.1, r.2)

/-- The `while found` loop of `umount_all`: every iteration removes one table
entry, so the number of entries is sufficient fuel (`umount_loop_fuel_complete`
below proves the loop has indeed terminated with no matching mount left). -/
def umount_loop (img_path : String) (t : MountTable) : List String × MountTable :=
  umount_loop_fuel img_path t.length t

/-- Result of `umount_all` (lines 288-297): the unmount trace, the final
mount table, whether the trailing `del mount_image.mounted` raised
`AttributeError` (it does exactly when the flag attribute is absent), and the
flag afterwards (always absent: deleted, or never set in the first place). -/
structure UmountAllResult where
  trace : List String
  table : MountTable
  attr_error : Bool
  mounted_flag : Bool
deriving DecidableEq

/-- Embedding of `umount_all` (lines 288-297): run the unmount loop to
completion, then unconditionally `del mount_image.mounted`. -/
def umount_all (img_path : String) (mounted_flag : Bool) (t : MountTable) :
    UmountAllResult :=
  let r := umount_loop img_path t
  { trace := r.1, table := r.2, attr_error := !mounted_flag, mounted_flag := false }

/-! ## Sorting and selection lemmas -/

theorem mem_insertDesc (x a : String) (l : List String) :
    a ∈ insertDesc x l ↔ a = x ∨ a ∈ l := by
  induction l with
  | nil => simp [insertDesc]
  | cons y ys ih =>
    simp only [insertDesc]
    split
    · simp [List.mem_cons]
    · simp [List.mem_cons, ih]
      tauto

theorem mem_sortDescLen (a : String) (l : List String) :
    a ∈ sortDescLen l ↔ a ∈ l := by
  induction l with
  | nil => simp [sortDescLen]
  | cons x xs ih => simp [sortDescLen, mem_insertDesc, ih]

theorem pairwise_insertDesc (x : String) (l : List String)
    (h : l.Pairwise (fun a b => b.length ≤ a.length)) :
    (insertDesc x l).Pairwise (fun a b => b.length ≤ a.length) := by
  induction l with
  | nil => simp [insertDesc]
  | cons y ys ih =>
    rcases List.pairwise_cons.1 h with ⟨hy, hys⟩
    simp only [insertDesc]
    split
    · rename_i hle
      refine List.pairwise_cons.2 ⟨?_, h⟩
      intro b hb
      rcases List.mem_cons.1 hb with rfl | hb
      · exact hle
      · exact le_trans (hy b hb) hle
    · rename_i hgt
      refine List.pairwise_cons.2 ⟨?_, ih hys⟩
      intro b hb
      rcases (mem_insertDesc x b ys).1 hb with rfl | hb
      · omega
      · exact hy b hb

theorem pairwise_sortDescLen (l : List String) :
    (sortDescLen l).Pairwise (fun a b => b.length ≤ a.length) := by
  induction l with
  | nil => simp [sortDescLen]
  | cons x xs ih => exact pairwise_insertDesc x (sortDescLen xs) ih

theorem mem_dictKeys_aux (l : List String) (acc : List String) (x : String) :
    x ∈ l.foldl (fun acc d => if acc.contains d then acc else acc ++ [d]) acc ↔
      x ∈ acc ∨ x ∈ l := by
  induction l generalizing acc with
  | nil => simp
  | cons d rest ih =>
    simp only [List.foldl_cons]
    rw [ih]
    split
    · rename_i hc
      have hd : d ∈ acc := by simpa [List.contains] using hc
      constructor
      · rintro (h | h)
        · exact Or.inl h
        · exact Or.inr (List.mem_cons_of_mem _ h)
      · rintro (h | h)
        · exact Or.inl h
        · rcases List.mem_cons.1 h with rfl | h
          · exact Or.inl hd
          · exact Or.inr h
    · simp only [List.mem_append, List.mem_singleton, List.mem_cons]
      tauto

theorem mem_dictKeys (x : String) (l : List String) : x ∈ dictKeys l ↔ x ∈ l := by
  simpa [dictKeys] using mem_dictKeys_aux l [] x

theorem find_first_longest (l : List String) (q : String → Bool) (a : String)
    (hp : l.Pairwise (fun a b => b.length ≤ a.length))
    (hf : l.find? q = some a) :
    ∀ b ∈ l, q b = true → b.length ≤ a.length := by
  induction l with
  | nil => cases hf
  | cons x xs ih =>
    rcases List.pairwise_cons.1 hp with ⟨hx, hxs⟩
    by_cases hqx : q x = true
    · have hax : a = x := by
        rw [List.find?_cons_of_pos _ hqx] at hf
        exact (Option.some.inj hf).symm
      subst hax
      intro b hb hqb
      rcases List.mem_cons.1 hb with rfl | hb
      · exact le_refl _
      · exact hx b hb
    · rw [List.find?_cons_of_neg _ hqx] at hf
      intro b hb hqb
      rcases List.mem_cons.1 hb with rfl | hb
      · exact absurd hqb hqx
      · exact ih hxs hf b hb hqb

theorem pickMount_some (p : String) (t : MountTable) (mp : String)
    (h : pickMount p t = some mp) :
    umount_pred p mp = true ∧ mp ∈ table_dests t ∧
      ∀ b ∈ table_dests t, umount_pred p b = true → b.length ≤ mp.length := by
  refine ⟨List.find?_some h, ?_, ?_⟩
  · exact (mem_dictKeys mp _).1 ((mem_sortDescLen mp _).1 (List.mem_of_find?_eq_some h))
  · intro b hb hq
    exact find_first_longest _ _ mp (pairwise_sortDescLen _) h b
      ((mem_sortDescLen b _).2 ((mem_dictKeys b _).2 hb)) hq

theorem pickMount_none (p : String) (t : MountTable)
    (h : pickMount p t = none) :
    ∀ mp ∈ table_dests t, umount_pred p mp = false := by
  intro mp hmp
  have h2 := List.find?_eq_none.1 h mp
    ((mem_sortDescLen mp _).2 ((mem_dictKeys mp _).2 hmp))
  simpa using h2

theorem mem_of_mem_eraseTop (mp : String) (t : MountTable) (e : String × String)
    (h : e ∈ eraseTop mp t) : e ∈ t := by
  unfold eraseTop at h
  rw [List.mem_reverse] at h
  exact List.mem_reverse.1 ((List.eraseP_sublist _).mem h)

theorem length_eraseTop (mp : String) (t : MountTable)
    (h : mp ∈ table_dests t) :
    (eraseTop mp t).length = t.length - 1 := by
  obtain ⟨e, he, heq⟩ := List.mem_map.1 h
  have he2 : e ∈ t.reverse := List.mem_reverse.2 he
  have hpe : (fun x : String × String => x.1 == mp) e = true := by
    simp [heq]
  unfold eraseTop
  rw [List.length_reverse, List.length_eraseP_of_mem he2 hpe, List.length_reverse]

theorem filter_eraseP_of_imp {α : Type} (q pr : α → Bool) (l : List α)
    (h : ∀ x, pr x = true → q x = false) :
    (l.eraseP pr).filter q = l.filter q := by
  induction l with
  | nil => rfl
  | cons a l ih =>
    by_cases hpa : pr a = true
    · rw [List.eraseP_cons_of_pos hpa]
      simp [List.filter_cons, h a hpa]
    · rw [List.eraseP_cons_of_neg hpa]
      simp only [List.filter_cons]
      cases hqa : q a <;> simp [ih]

theorem filter_eraseTop (mp : String) (t : MountTable) (q : String × String → Bool)
    (h : ∀ e : String × String, e.1 = mp → q e = false) :
    (eraseTop mp t).filter q = t.filter q := by
  have h2 : ∀ x : String × String, (fun e : String × String => e.1 == mp) x = true →
      q x = false := by
    intro x hx
    exact h x (by simpa using hx)
  unfold eraseTop
  rw [List.filter_reverse, filter_eraseP_of_imp q _ _ h2, List.filter_reverse,
    List.reverse_reverse]

/-! ## Unmount loop invariants -/

theorem umount_loop_fuel_trace (p : String) (n : Nat) (t : MountTable) :
    ∀ mp ∈ (umount_loop_fuel p n t).1,
      umount_pred p mp = true ∧ mp ∈ table_dests t := by
  induction n generalizing t with
  | zero =>
    intro mp h
    simp [umount_loop_fuel] at h
  | succ n ih =>
    intro mp h
    cases hpick : pickMount p t with
    | none =>
      rw [show umount_loop_fuel p (n + 1) t = ([], t) from by
        simp [umount_loop_fuel, hpick]] at h
      cases h
    | some m =>
      have hm := pickMount_some p t m hpick
      rw [show umount_loop_fuel p (n + 1) t =
          (m :: (umount_loop_fuel p n (eraseTop m t)).1,
            (umount_loop_fuel p n (eraseTop m t)).2) from by
        simp [umount_loop_fuel, hpick]] at h
      rcases List.mem_cons.1 h with rfl | h
      · exact ⟨hm.1, hm.2.1⟩
      · obtain ⟨h1, h2⟩ := ih (eraseTop m t) mp h
        obtain ⟨e, he, heq⟩ := List.mem_map.1 h2
        exact ⟨h1, List.mem_map.2 ⟨e, mem_of_mem_eraseTop m t e he, heq⟩⟩

theorem umount_loop_fuel_complete (p : String) (n : Nat) (t : MountTable)
    (hn : t.length ≤ n) :
    pickMount p (umount_loop_fuel p n t).2 = none := by
  induction n generalizing t with
  | zero =>
    have ht : t = [] := List.length_eq_zero.1 (Nat.le_zero.1 hn)
    subst ht
    rfl
  | succ n ih =>
    cases hpick : pickMount p t with
    | none =>
      rw [show umount_loop_fuel p (n + 1) t = ([], t) from by
        simp [umount_loop_fuel, hpick]]
      exact hpick
    | some m =>
      have hm := pickMount_some p t m hpick
      have hlen := length_eraseTop m t hm.2.1
      have hpos : 0 < t.length := by
        obtain ⟨e, he, _⟩ := List.mem_map.1 hm.2.1
        exact List.length_pos.2 (List.ne_nil_of_mem he)
      rw [show umount_loop_fuel p (n + 1) t =
          (m :: (umount_loop_fuel p n (eraseTop m t)).1,
            (umount_loop_fuel p n (eraseTop m t)).2) from by
        simp [umount_loop_fuel, hpick]]
      exact ih (eraseTop m t) (by omega)

theorem umount_loop_fuel_pairwise (p : String) (n : Nat) (t : MountTable) :
    (umount_loop_fuel p n t).1.Pairwise (fun a b => b.length ≤ a.length) := by
  induction n generalizing t with
  | zero => simp [umount_loop_fuel]
  | succ n ih =>
    cases hpick : pickMount p t with
    | none =>
      rw [show umount_loop_fuel p (n + 1) t = ([], t) from by
        simp [umount_loop_fuel, hpick]]
      simp
    | some m =>
      have hm := pickMount_some p t m hpick
      rw [show umount_loop_fuel p (n + 1) t =
          (m :: (umount_loop_fuel p n (eraseTop m t)).1,
            (umount_loop_fuel p n (eraseTop m t)).2) from by
        simp [umount_loop_fuel, hpick]]
      refine List.pairwise_cons.2 ⟨?_, ih (eraseTop m t)⟩
      intro b hb
      obtain ⟨hb1, hb2⟩ := umount_loop_fuel_trace p n (eraseTop m t) b hb
      obtain ⟨e, he, heq⟩ := List.mem_map.1 hb2
      have hbt : b ∈ table_dests t :=
        List.mem_map.2 ⟨e, mem_of_mem_eraseTop m t e he, heq⟩
      exact hm.2.2 b hbt hb1

theorem umount_loop_fuel_length (p : String) (n : Nat) (t : MountTable) :
    (umount_loop_fuel p n t).1.length + (umount_loop_fuel p n t).2.length =
      t.length := by
  induction n generalizing t with
  | zero => simp [umount_loop_fuel]
  | succ n ih =>
    cases hpick : pickMount p t with
    | none =>
      rw [show umount_loop_fuel p (n + 1) t = ([], t) from by
        simp [umount_loop_fuel, hpick]]
      simp
    | some m =>
      have hm := pickMount_some p t m hpick
      have hlen := length_eraseTop m t hm.2.1
      have hpos : 0 < t.length := by
        obtain ⟨e, he, _⟩ := List.mem_map.1 hm.2.1
        exact List.length_pos.2 (List.ne_nil_of_mem he)
      rw [show umount_loop_fuel p (n + 1) t =
          (m :: (umount_loop_fuel p n (eraseTop m t)).1,
            (umount_loop_fuel p n (eraseTop m t)).2) from by
        simp [umount_loop_fuel, hpick]]
      have hrec := ih (eraseTop m t)
      simp only [List.length_cons]
      omega

theorem umount_loop_fuel_filter (p : String) (n : Nat) (t : MountTable)
    (q : String × String → Bool)
    (hq : ∀ e : String × String, umount_pred p e.1 = true → q e = false) :
    ((umount_loop_fuel p n t).2).filter q = t.filter q := by
  induction n generalizing t with
  | zero => simp [umount_loop_fuel]
  | succ n ih =>
    cases hpick : pickMount p t with
    | none =>
      rw [show umount_loop_fuel p (n + 1) t = ([], t) from by
        simp [umount_loop_fuel, hpick]]
    | some m =>
      have hm := pickMount_some p t m hpick
      rw [show umount_loop_fuel p (n + 1) t =
          (m :: (umount_loop_fuel p n (eraseTop m t)).1,
            (umount_loop_fuel p n (eraseTop m t)).2) from by
        simp [umount_loop_fuel, hpick]]
      have h1 : (eraseTop m t).filter q = t.filter q := by
        refine filter_eraseTop m t q ?_
        intro e he
        exact hq e (by rw [he]; exact hm.1)
      rw [show (m :: (umount_loop_fuel p n (eraseTop m t)).1,
          (umount_loop_fuel p n (eraseTop m t)).2).2 =
          (umount_loop_fuel p n (eraseTop m t)).2 from rfl]
      rw [ih (eraseTop m t), h1]

/-! ## Claim theorems: C3, C9, C10 -/

/-- C3: the unmount loop removes matching mounts longest-path-first (the
trace is non-increasing in length, so a proper-prefix parent comes strictly
after its nested child), loops until no matching mount remains, and leaves
every mount whose path does not start with the container path untouched; on
the table (/a/b, /a/b/c, /x) with container path /a/b it unmounts /a/b/c
strictly before /a/b and never touches /x. -/
theorem C3_umount_longest_first (p : String) (t : MountTable) :
    ((umount_loop p t).1.Pairwise (fun a b => b.length ≤ a.length)) ∧
    (∀ i j : Fin (umount_loop p t).1.length,
      str_startswith ((umount_loop p t).1.get i) ((umount_loop p t).1.get j) = true →
      (umount_loop p t).1.get i ≠ (umount_loop p t).1.get j →
      (j : Nat) < (i : Nat)) ∧
    (pickMount p (umount_loop p t).2 = none) ∧
    ((umount_loop p t).2.filter (fun e => !(str_startswith p e.1)) =
      t.filter (fun e => !(str_startswith p e.1))) ∧
    (umount_loop "/a/b" [("/a/b", "src1"), ("/a/b/c", "src2"), ("/x", "src3")] =
      (["/a/b/c", "/a/b"], [("/x", "src3")])) := by
  have hpw : (umount_loop p t).1.Pairwise (fun a b => b.length ≤ a.length) :=
    umount_loop_fuel_pairwise p t.length t
  refine ⟨hpw, ?_, umount_loop_fuel_complete p t.length t (le_refl _), ?_, by decide⟩
  · intro i j hpre hne
    have hlen : ((umount_loop p t).1.get i).length <
        ((umount_loop p t).1.get j).length :=
      str_startswith_length_lt _ _ hpre hne
    by_contra hcon
    have hij : (i : Nat) ≤ (j : Nat) := Nat.le_of_not_lt hcon
    rcases Nat.eq_or_lt_of_le hij with heq | hlt
    · exact hne (by rw [show i = j from Fin.ext heq])
    · have hle := (List.pairwise_iff_get.1 hpw) i j (Fin.lt_def.mpr hlt)
      omega
  · refine umount_loop_fuel_filter p t.length t _ ?_
    intro e he
    have h1 : str_startswith p e.1 = true := by
      simp [umount_pred] at he
      exact he.1
    simp [h1]

/-- Witness for C3: in the concrete teardown trace, the nested mount /a/b/c
(index 0) is removed strictly before its parent /a/b (index 1). -/
theorem C3_umount_longest_first_witness :
    (0 : Nat) < 1 ∧
    umount_loop "/a/b" [("/a/b", "src1"), ("/a/b/c", "src2"), ("/x", "src3")] =
      (["/a/b/c", "/a/b"], [("/x", "src3")]) :=
  ⟨(C3_umount_longest_first "/a/b"
      [("/a/b", "src1"), ("/a/b/c", "src2"), ("/x", "src3")]).2.1
      ⟨1, by decide⟩ ⟨0, by decide⟩ (by decide) (by decide),
   (C3_umount_longest_first "/a/b"
      [("/a/b", "src1"), ("/a/b/c", "src2"), ("/x", "src3")]).2.2.2.2⟩

/-- C9: the unmount loop selects mounts by a plain string-prefix test on the
container path plus a substring exclusion of the literal /chroot/src/: every
traced unmount passes that test, no passing entry survives, the failing
entries are preserved verbatim, and each loop iteration removes exactly one
entry; in particular the sibling path /a/b-extra is unmounted for container
path /a/b, while a path containing /chroot/src/ never is. -/
theorem C9_umount_selection_semantics (p : String) (t : MountTable) :
    (∀ mp ∈ (umount_loop p t).1,
      str_startswith p mp = true ∧ str_contains mp "/chroot/src/" = false) ∧
    (∀ e ∈ (umount_loop p t).2, umount_pred p e.1 = false) ∧
    ((umount_loop p t).2.filter (fun e => !(umount_pred p e.1)) =
      t.filter (fun e => !(umount_pred p e.1))) ∧
    ((umount_loop p t).1.length + (umount_loop p t).2.length = t.length) ∧
    (umount_loop "/a/b" [("/a/b-extra", "s")] = (["/a/b-extra"], [])) ∧
    (umount_loop "/a/b" [("/a/b/chroot/src/x", "s")] =
      ([], [("/a/b/chroot/src/x", "s")])) := by
  refine ⟨?_, ?_, ?_, umount_loop_fuel_length p t.length t, by decide, by decide⟩
  · intro mp hmp
    have h := (umount_loop_fuel_trace p t.length t mp hmp).1
    simp [umount_pred] at h
    exact h
  · intro e he
    have hdone := umount_loop_fuel_complete p t.length t (le_refl _)
    exact pickMount_none p (umount_loop p t).2 hdone e.1 (List.mem_map.2 ⟨e, he, rfl⟩)
  · refine umount_loop_fuel_filter p t.length t _ ?_
    intro e he
    simp [he]

/-- Witness for C9: the sibling mount point /a/b-extra passes the prefix test
without the exclusion and is unmounted for container path /a/b. -/
theorem C9_umount_selection_semantics_witness :
    (str_startswith "/a/b" "/a/b-extra" = true ∧
      str_contains "/a/b-extra" "/chroot/src/" = false) ∧
    umount_loop "/a/b" [("/a/b-extra", "s")] = (["/a/b-extra"], []) :=
  ⟨(C9_umount_selection_semantics "/a/b" [("/a/b-extra", "s")]).1 "/a/b-extra"
      (by decide),
   (C9_umount_selection_semantics "/a/b" [("/a/b-extra", "s")]).2.2.2.2.1⟩

/-- C10: `umount_all` unconditionally deletes the per-process image-mounted
flag as its final step, so with the flag absent it raises `AttributeError`
even though its unmount loop already completed; with the flag present it
completes, the image mount point itself has been removed by the loop
(whenever the container path does not contain the protected literal), and a
subsequent `unmount_image` is a no-op. -/
theorem C10_umount_all_deletes_flag (p : String) (t : MountTable) (ops : List PrivOp) :
    (umount_all p false t =
      { trace := (umount_loop p t).1, table := (umount_loop p t).2,
        attr_error := true, mounted_flag := false }) ∧
    (umount_all p true t =
      { trace := (umount_loop p t).1, table := (umount_loop p t).2,
        attr_error := false, mounted_flag := false }) ∧
    (str_contains p "/chroot/src/" = false →
      p ∉ table_dests (umount_all p true t).table) ∧
    (unmount_image { mounted := false, ops := ops } =
      { mounted := false, ops := ops }) := by
  refine ⟨rfl, rfl, ?_, by simp [unmount_image]⟩
  intro hc hpm
  have hdone := umount_loop_fuel_complete p t.length t (le_refl _)
  have hfalse := pickMount_none p (umount_loop p t).2 hdone p hpm
  simp [umount_pred, str_startswith_self, hc] at hfalse

/-- Witness for C10: for container path /a/b the image mount entry at /a/b is
gone after a successful `umount_all`. -/
theorem C10_umount_all_deletes_flag_witness :
    str_contains "/a/b" "/chroot/src/" = false ∧
    "/a/b" ∉ table_dests (umount_all "/a/b" true [("/a/b", "img")]).table :=
  ⟨by decide,
   (C10_umount_all_deletes_flag "/a/b" [("/a/b", "img")] []).2.2.1 (by decide)⟩

/-! ## Mount Table Reader: `get_mounts` (linux.py lines 250-258) -/

/-- Fields of one `/proc/self/mountinfo` line after `line.split()`: the
unpacking `src, dest = parts[3:5]` succeeds only with at least five fields
(field 3 is the mount root/source path, field 4 the mount point); otherwise
Python raises `ValueError`, modelled as `none`. -/
def parse_line (parts : List String) : Option (String × String) :=
  match parts with
  | _ :: _ :: _ :: src :: dest :: _ => some (src, dest)
  | _ => none

/-- Python dict assignment `ans[k] = v` on an insertion-ordered association
list: overwrite in place when the key exists, otherwise append. -/
def dictInsert (m : List (String × String)) (k v : String) :
    List (String × String) :=
  if (m.map Prod.fst).contains k
  then m.map (fun e => if e.1 == k then (k, v) else e)
  else m ++ [(k, v)]

/-- Python dict lookup (keys are unique by construction of `dictInsert`). -/
def dictFind (m : List (String × String)) (k : String) : Option String :=
  (m.find? (fun e => e.1 == k)).map Prod.snd

/-- Loop of `get_mounts` over the remaining mountinfo lines, carrying the
dict `ans`; `resolve` is the host's
`os.path.abspath(os.path.realpath(.))` oracle. -/
def get_mounts_loop (resolve : String → String) (ans : List (String × String)) :
    List (List String) → Option (List (String × String))
  | [] => some ans
  | parts :: rest =>
    match parse_line parts with
    | some sd => get_mounts_loop resolve (dictInsert ans (resolve sd.2) sd.1) rest
    | none => none

/-- Embedding of `get_mounts` (lines 250-258): fold the current mountinfo
lines into a dict mapping each normalized (absolute, symlink-resolved)
destination to that mount's source field. The result is recomputed from the
lines passed in on every call; the function keeps no state. -/
def get_mounts (resolve : String → String) (lines : List (List String)) :
    Option (List (String × String)) :=
  get_mounts_loop resolve [] lines

/-- Reading of the spec for the mapping's value: the source field of the last
well-formed line whose resolved destination is `k` (later lines overwrite
earlier ones, as dict assignment does). -/
def lastSrc (resolve : String → String) (lines : List (List String)) (k : String) :
    Option String :=
  lines.foldl
    (fun acc parts =>
      match parse_line parts with
      | some sd => if resolve sd.2 == k then some sd.1 else acc
      | none => acc)
    none

theorem find?_cons_true {α : Type} (p : α → Bool) (a : α) (l : List α)
    (h : p a = true) : (a :: l).find? p = some a := by
  simp [List.find?, h]

theorem find?_cons_false {α : Type} (p : α → Bool) (a : α) (l : List α)
    (h : p a = false) : (a :: l).find? p = l.find? p := by
  simp [List.find?, h]

theorem find?_append_none {α : Type} (p : α → Bool) (l₁ l₂ : List α)
    (h : l₁.find? p = none) : (l₁ ++ l₂).find? p = l₂.find? p := by
  induction l₁ with
  | nil => rfl
  | cons a l ih =>
    have hpa : ¬ p a = true := by
      have := List.find?_eq_none.1 h a (List.mem_cons_self a l)
      simpa using this
    have hl : l.find? p = none := by
      rw [List.find?_cons_of_neg _ hpa] at h
      exact h
    rw [List.cons_append, List.find?_cons_of_neg _ hpa]
    exact ih hl

theorem find?_append_some {α : Type} (p : α → Bool) (l₁ l₂ : List α) (a : α)
    (h : l₁.find? p = some a) : (l₁ ++ l₂).find? p = some a := by
  induction l₁ with
  | nil => cases h
  | cons b l ih =>
    by_cases hpb : p b = true
    · rw [List.find?_cons_of_pos _ hpb] at h
      rw [List.cons_append, List.find?_cons_of_pos _ hpb]
      exact h
    · rw [List.find?_cons_of_neg _ hpb] at h
      rw [List.cons_append, List.find?_cons_of_neg _ hpb]
      exact ih h

theorem find?_map_update (m : List (String × String)) (k v q : String)
    (hqk : q ≠ k) :
    (m.map (fun e => if e.1 == k then (k, v) else e)).find? (fun e => e.1 == q) =
      m.find? (fun e => e.1 == q) := by
  induction m with
  | nil => rfl
  | cons e rest ih =>
    by_cases hek : (e.1 == k) = true
    · have hek2 : e.1 = k := by simpa using hek
      have h1 : (((k, v) : String × String).1 == q) = false := by
        simp [Ne.symm hqk]
      have h2 : (e.1 == q) = false := by
        simp [hek2, Ne.symm hqk]
      rw [List.map_cons, show (if e.1 == k then (k, v) else e) = (k, v) from by
        simp [hek]]
      rw [find?_cons_false (fun e => e.1 == q) ((k, v) : String × String) _ h1,
        find?_cons_false (fun e => e.1 == q) e _ h2]
      exact ih
    · rw [List.map_cons, show (if e.1 == k then (k, v) else e) = e from by
        simp [hek]]
      by_cases heq : (e.1 == q) = true
      · rw [find?_cons_true (fun e => e.1 == q) e _ heq,
          find?_cons_true (fun e => e.1 == q) e _ heq]
      · have heq2 : (e.1 == q) = false := by simpa using heq
        rw [find?_cons_false (fun e => e.1 == q) e _ heq2,
          find?_cons_false (fun e => e.1 == q) e _ heq2]
        exact ih

theorem find?_map_update_self (m : List (String × String)) (k v : String)
    (hc : k ∈ m.map Prod.fst) :
    (m.map (fun e => if e.1 == k then (k, v) else e)).find? (fun e => e.1 == k) =
      some (k, v) := by
  induction m with
  | nil => cases hc
  | cons e rest ih =>
    by_cases hek : (e.1 == k) = true
    · rw [List.map_cons, show (if e.1 == k then (k, v) else e) = (k, v) from by
        simp [hek]]
      rw [find?_cons_true (fun e => e.1 == k) ((k, v) : String × String) _ (by simp)]
    · rw [List.map_cons, show (if e.1 == k then (k, v) else e) = e from by
        simp [hek]]
      rw [find?_cons_false (fun e => e.1 == k) e _ (by simpa using hek)]
      refine ih ?_
      rw [List.map_cons] at hc
      rcases List.mem_cons.1 hc with h | h
      · exfalso
        exact hek (by simp [h.symm])
      · exact h

theorem dictFind_insert (m : List (String × String)) (k v q : String) :
    dictFind (dictInsert m k v) q = if q = k then some v else dictFind m q := by
  unfold dictInsert dictFind
  split
  · rename_i hc
    have hck : k ∈ m.map Prod.fst := by simpa [List.contains] using hc
    by_cases hqk : q = k
    · subst hqk
      rw [find?_map_update_self m q v hck]
      simp
    · rw [find?_map_update m k v q hqk]
      simp [hqk]
  · rename_i hc
    have hck : ¬ k ∈ m.map Prod.fst := by simpa [List.contains] using hc
    by_cases hqk : q = k
    · subst hqk
      have hnone : m.find? (fun e => e.1 == q) = none := by
        rw [List.find?_eq_none]
        intro e he hpe
        exact hck (List.mem_map.2 ⟨e, he, by simpa using hpe⟩)
      rw [find?_append_none _ _ _ hnone]
      simp [List.find?]
    · cases hfm : m.find? (fun e => e.1 == q) with
      | some a =>
        rw [find?_append_some _ _ _ a hfm]
        simp [hqk, hfm]
      | none =>
        rw [find?_append_none _ _ _ hfm]
        have hkq : (((k, v) : String × String).1 == q) = false := by
          simp [Ne.symm hqk]
        rw [find?_cons_false (fun e => e.1 == q) ((k, v) : String × String) _ hkq]
        simp [hqk, hfm]

theorem mem_dictInsert (m : List (String × String)) (k v : String)
    (e : String × String) (h : e ∈ dictInsert m k v) : e ∈ m ∨ e = (k, v) := by
  unfold dictInsert at h
  split at h
  · obtain ⟨x, hx, hxe⟩ := List.mem_map.1 h
    by_cases hk : (x.1 == k) = true
    · right
      rw [← hxe]
      simp [hk]
    · left
      rw [← hxe]
      simpa [hk] using hx
  · rcases List.mem_append.1 h with h | h
    · exact Or.inl h
    · exact Or.inr (by simpa using h)

theorem get_mounts_loop_spec (resolve : String → String) (lines : List (List String))
    (ans m : List (String × String))
    (h : get_mounts_loop resolve ans lines = some m) (k : String) :
    dictFind m k =
      lines.foldl
        (fun acc parts =>
          match parse_line parts with
          | some sd => if resolve sd.2 == k then some sd.1 else acc
          | none => acc)
        (dictFind ans k) := by
  induction lines generalizing ans with
  | nil =>
    cases h
    rfl
  | cons parts rest ih =>
    cases hp : parse_line parts with
    | none =>
      rw [show get_mounts_loop resolve ans (parts :: rest) = none from by
        simp [get_mounts_loop, hp]] at h
      cases h
    | some sd =>
      have h2 : get_mounts_loop resolve (dictInsert ans (resolve sd.2) sd.1) rest =
          some m := by
        rw [show get_mounts_loop resolve ans (parts :: rest) =
          get_mounts_loop resolve (dictInsert ans (resolve sd.2) sd.1) rest from by
          simp [get_mounts_loop, hp]] at h
        exact h
      rw [ih (dictInsert ans (resolve sd.2) sd.1) h2, List.foldl_cons]
      congr 1
      rw [dictFind_insert]
      simp only [hp]
      by_cases hk : resolve sd.2 = k
      · simp [hk]
      · simp [hk, Ne.symm hk]

theorem get_mounts_loop_entries (resolve : String → String)
    (lines : List (List String)) :
    ∀ (ans m : List (String × String)),
      get_mounts_loop resolve ans lines = some m →
      ∀ e ∈ m, e ∈ ans ∨ ∃ parts ∈ lines, ∃ sd : String × String,
        parse_line parts = some sd ∧ e = (resolve sd.2, sd.1) := by
  induction lines with
  | nil =>
    intro ans m h e he
    cases h
    exact Or.inl he
  | cons parts rest ih =>
    intro ans m h e he
    cases hp : parse_line parts with
    | none =>
      rw [show get_mounts_loop resolve ans (parts :: rest) = none from by
        simp [get_mounts_loop, hp]] at h
      cases h
    | some sd =>
      have h2 : get_mounts_loop resolve (dictInsert ans (resolve sd.2) sd.1) rest =
          some m := by
        rw [show get_mounts_loop resolve ans (parts :: rest) =
          get_mounts_loop resolve (dictInsert ans (resolve sd.2) sd.1) rest from by
          simp [get_mounts_loop, hp]] at h
        exact h
      rcases ih (dictInsert ans (resolve sd.2) sd.1) m h2 e he with h3 | h3
      · rcases mem_dictInsert ans (resolve sd.2) sd.1 e h3 with h4 | h4
        · exact Or.inl h4
        · exact Or.inr ⟨parts, List.mem_cons_self parts rest, sd, hp, h4⟩
      · obtain ⟨parts2, hmem, sd2, hp2, he2⟩ := h3
        exact Or.inr ⟨parts2, List.mem_cons_of_mem parts hmem, sd2, hp2, he2⟩

/-- C8: on well-formed mountinfo lines, `get_mounts` builds a mapping whose
value at any key `k` is the source field of the last line whose destination
normalizes to `k` (so its keys are exactly the normalized destinations), and
every entry of the mapping is the (normalized destination, source) pair of
some line. The mapping is a pure function of the lines passed in at the call,
so each call reflects the current table and no state is cached. -/
theorem C8_get_mounts_reads_table (resolve : String → String)
    (lines : List (List String)) (m : List (String × String))
    (h : get_mounts resolve lines = some m) :
    (∀ k, dictFind m k = lastSrc resolve lines k) ∧
    (∀ e ∈ m, ∃ parts ∈ lines, ∃ sd : String × String,
      parse_line parts = some sd ∧ e = (resolve sd.2, sd.1)) := by
  constructor
  · intro k
    have := get_mounts_loop_spec resolve lines [] m h k
    simpa [lastSrc, dictFind] using this
  · intro e he
    rcases get_mounts_loop_entries resolve lines [] m h e he with h0 | h0
    · cases h0
    · exact h0

/-- Witness for C8 on a one-line mount table read with the identity resolve
oracle. -/
theorem C8_get_mounts_reads_table_witness :
    get_mounts id [["36", "35", "98:0", "/mnt1", "/mnt2", "rw"]] =
      some [("/mnt2", "/mnt1")] ∧
    dictFind [("/mnt2", "/mnt1")] "/mnt2" =
      lastSrc id [["36", "35", "98:0", "/mnt1", "/mnt2", "rw"]] "/mnt2" :=
  ⟨by decide,
   (C8_get_mounts_reads_table id [["36", "35", "98:0", "/mnt1", "/mnt2", "rw"]]
      [("/mnt2", "/mnt1")] (by decide)).1 "/mnt2"⟩

end Bypy
